import Mathlib

/-!
Verification of the renovate-git-history-action core (TableParser and
HistoryRenderer) against its natural-language specification.

The TypeScript source is shallowly embedded: JavaScript strings become
`List Char` (exposed as `String` at the API boundary), the regular
expressions of `parseTable` are unfolded into their deterministic matching
behaviour on the fixed patterns involved, and the external `git` process,
the process environment and the temporary directory become an explicit
`GitWorld` oracle threaded through `getGitHistoryDescription`.  A JavaScript
exception escaping a function is modelled as `Except.error`.

The repository contains two near-identical renderer implementations; per the
design notes they are one component.  The embedding follows the current,
exec-driven implementation (the one with the try/finally cleanup, the
`sanitizeEnvs` child environment, the long-hash compare link and the
collapsible details block), which is the variant the specification
describes.
-/

namespace RenovateAction

/-! ## JavaScript string primitives -/

/-- Characters removed by JavaScript `trim` / `trimEnd` (ASCII range). -/
def isJsSpace (c : Char) : Bool :=
  c = ' ' || c = '\t' || c = '\n' || c = '\r' || c = '\x0b' || c = '\x0c'

/-- JavaScript `String.prototype.trim` on a character list. -/
def jsTrim (s : List Char) : List Char :=
  ((s.dropWhile isJsSpace).reverse.dropWhile isJsSpace).reverse

/-- JavaScript `String.prototype.trimEnd`. -/
def jsTrimEnd (s : String) : String :=
  ⟨(s.data.reverse.dropWhile isJsSpace).reverse⟩

/-- JavaScript `toLowerCase` (ASCII; non-ASCII characters are untouched,
which is all the case-insensitive header match needs). -/
def lc (s : List Char) : List Char :=
  s.map Char.toLower

/-- First index `i` (scanning left to right) at which `pat` occurs in `s`
as a contiguous block, i.e. the JavaScript `indexOf` / leftmost regex match
position; `none` models the JavaScript result `-1`. -/
def findFromAux (pat : List Char) : List Char → Option Nat
  | [] => if pat = [] then some 0 else none
  | c :: rest =>
    if pat <+: (c :: rest) then some 0
    else (findFromAux pat rest).map (· + 1)

/-- JavaScript `s.split(sep)` for a single-character separator. -/
def splitCharL (sep : Char) : List Char → List (List Char)
  | [] => [[]]
  | c :: rest =>
    let r := splitCharL sep rest
    if c = sep then [] :: r
    else
      match r with
      | h :: t => (c :: h) :: t
      | [] => [[c]]

/-- Inverse of `splitCharL`: `parts.join(sep)`. -/
def unsplitCharL (sep : Char) : List (List Char) → List Char
  | [] => []
  | [a] => a
  | a :: rest => a ++ sep :: unsplitCharL sep rest

/-! ## TableParser (`parseTable` in `src/util.ts`) -/

/-- The fixed table header the parser looks for. -/
def headerPat : List Char := "| Package | Update | Change |".data

/-- The backtick character (used by the change-cell pattern). -/
def btick : Char := Char.ofNat 96

/-- A `[0-9a-f]` character, as in the change-cell regular expression. -/
def isHexChar (c : Char) : Bool :=
  ('0' ≤ c && c ≤ '9') || ('a' ≤ c && c ≤ 'f')

/-- The literal text between the two captured hashes of the change-cell
pattern: a closing backtick, the arrow, and the next opening backtick. -/
def midArrow : List Char := [btick, ' ', '-', '>', ' ', btick]

/-- Attempt of the change-cell regular expression
(backtick, 7-40 hex, backtick, arrow, backtick, 7-40 hex, backtick)
anchored at the start of `s`, returning the two capture groups.  The hex
runs are maximal: a greedy bounded repetition followed by a non-hex literal
backtick matches exactly the maximal run, and fails if that run is shorter
than 7 or longer than 40. -/
def changeMatchAt (s : List Char) : Option (List Char × List Char) :=
  match s with
  | [] => none
  | c :: rest =>
    if c = btick then
      let r1 := rest.takeWhile isHexChar
      if 7 ≤ r1.length && r1.length ≤ 40 then
        match rest.drop r1.length with
        | c1 :: c2 :: c3 :: c4 :: c5 :: c6 :: rest2 =>
          if c1 = btick && c2 = ' ' && c3 = '-' && c4 = '>' && c5 = ' ' && c6 = btick then
            let r2 := rest2.takeWhile isHexChar
            if 7 ≤ r2.length && r2.length ≤ 40 then
              match rest2.drop r2.length with
              | c7 :: _ => if c7 = btick then some (r1, r2) else none
              | [] => none
            else none
          else none
        | _ => none
      else none
    else none

/-- Leftmost match of the change-cell regular expression in `s`
(JavaScript `change.match(changeShaRegex)`). -/
def findChangeMatch : List Char → Option (List Char × List Char)
  | [] => none
  | c :: rest =>
    match changeMatchAt (c :: rest) with
    | some r => some r
    | none => findChangeMatch rest

/-- `GitUpdate` record produced by the parser (`url`, `oldSha`, `newSha`). -/
structure GitUpdate where
  url : String
  oldSha : String
  newSha : String
deriving DecidableEq

/-- Intermediate per-row record (`PackageUpdate` in the source); a field is
`none` when the corresponding column was never assigned (JavaScript
`undefined`). -/
structure PackageUpdate where
  package? : Option (List Char) := none
  update? : Option (List Char) := none
  change? : Option (List Char) := none
deriving DecidableEq

/-- The inner loop of `parseTable` over one data row: for each cell index,
look up the header cell of that index, lower-case it, and assign the cell
value to the matching field.  `tableHeader[i]` is `undefined` when the data
row has more cells than the header row, and `undefined.toLowerCase()`
throws a `TypeError`, modelled as `Except.error ()`. -/
def fillUpdate (tableHeader : List (List Char)) :
    Nat → List (List Char) → PackageUpdate → Except Unit PackageUpdate
  | _, [], u => .ok u
  | i, v :: rest, u =>
    match tableHeader.get? i with
    | none => .error ()
    | some h =>
      let hl := lc h
      let u' :=
        if hl = "package".data then { u with package? := some v }
        else if hl = "update".data then { u with update? := some v }
        else if hl = "change".data then { u with change? := some v }
        else u
      fillUpdate tableHeader (i + 1) rest u'

/-- The outer loop of `parseTable` building one `PackageUpdate` per data
row; a thrown `TypeError` aborts the whole parse. -/
def buildUpdates (tableHeader : List (List Char)) :
    List (List (List Char)) → Except Unit (List PackageUpdate)
  | [] => .ok []
  | row :: rest => do
    let u ← fillUpdate tableHeader 0 row {}
    let us ← buildUpdates tableHeader rest
    .ok (u :: us)

/-- The final loop of `parseTable`: keep the `digest` rows whose `package`
and `change` are truthy (defined and non-empty) and whose change cell
matches the hash-pair pattern, extracting the two captured hashes. -/
def toGitUpdates : List PackageUpdate → List GitUpdate
  | [] => []
  | u :: rest =>
    match u.package?, u.change? with
    | some p, some c =>
      if p = [] ∨ c = [] then toGitUpdates rest
      else
        match findChangeMatch c with
        | some (o, n) => ⟨⟨p⟩, ⟨o⟩, ⟨n⟩⟩ :: toGitUpdates rest
        | none => toGitUpdates rest
    | _, _ => toGitUpdates rest

/-- Position of the case-insensitive header match in `body`
(`body.match(headerRegex)` with the `i` flag): both pattern and text are
lower-cased and the leftmost occurrence is taken. -/
def ciFindHeader (body : List Char) : Option Nat :=
  findFromAux (lc headerPat) (lc body)

/-- `body.indexOf(table[0])` where `table[0]` is the text the
case-insensitive regex matched at position `i`, i.e. the slice of `body` at
`i` of the header's length.  The `getD 0` default is never reached: the
matched text does occur in `body`. -/
def tableStartOf (body : List Char) (i : Nat) : Nat :=
  (findFromAux ((body.drop i).take headerPat.length) body).getD 0

/-- `body.indexOf("\n\n", tableStart)`; `none` models the result `-1`. -/
def tableEndOf (body : List Char) (start : Nat) : Option Nat :=
  (findFromAux ['\n', '\n'] (body.drop start)).map (· + start)

/-- `body.substring(tableStart, tableEnd)`.  When a blank line was found,
`start ≤ tableEnd ≤ body.length`, so this is the slice between the two
indices.  When `tableEnd` is `-1`, JavaScript `substring` clamps `-1` to
`0` and then swaps the arguments because `start > 0`, yielding
`body.substring(0, tableStart)` — the text before the header. -/
def tableBodyOf (body : List Char) (start : Nat) : List Char :=
  match tableEndOf body start with
  | some e => (body.take e).drop start
  | none => body.take start

/-- `tableBody.split("\n")`. -/
def tableRowsOf (body : List Char) (start : Nat) : List (List Char) :=
  splitCharL '\n' (tableBodyOf body start)

/-- `tableRows[0].split("|").map(s => s.trim())` (the split of a string is
never empty, so row 0 exists). -/
def tableHeaderOf (body : List Char) (start : Nat) : List (List Char) :=
  (splitCharL '|' ((tableRowsOf body start).headD [])).map jsTrim

/-- `tableRows.slice(2).map(row => row.split("|").map(s => s.trim()))`. -/
def tableDataOf (body : List Char) (start : Nat) : List (List (List Char)) :=
  ((tableRowsOf body start).drop 2).map fun row => (splitCharL '|' row).map jsTrim

/-- Everything `parseTable` does after the header was located at
`tableStart`. -/
def parseTableAt (body : List Char) (start : Nat) : Except Unit (List GitUpdate) :=
  (buildUpdates (tableHeaderOf body start) (tableDataOf body start)).map fun us =>
    toGitUpdates (us.filter fun u => u.update? = some "digest".data)

/-- `parseTable(body)`: `ok none` is the JavaScript `null` (no header found),
`ok (some l)` a normal return, and `error ()` a thrown `TypeError`. -/
def parseTable (body : List Char) : Except Unit (Option (List GitUpdate)) :=
  match ciFindHeader body with
  | none => .ok none
  | some i => (parseTableAt body (tableStartOf body i)).map some

/-! ## HistoryRenderer (`getGitHistoryDescription` and helpers) -/

/-- Drop `n` characters from the end (`dropRight`). -/
def dropRightL (s : List Char) (n : Nat) : List Char :=
  s.take (s.length - n)

/-- `s.replace(suffixRegex, "")` for an end-anchored literal pattern:
remove one occurrence of `suf` at the end of `s`, if present. -/
def stripSuffixL (s suf : List Char) : List Char :=
  if suf.isSuffixOf s then dropRightL s suf.length else s

/-- `gitUpdate.url.replace(/\/$/, "").replace(/\.git$/, "")`: strip one
trailing slash, then one trailing `.git`. -/
def normalizeUrl (url : String) : String :=
  ⟨stripSuffixL (stripSuffixL url.data "/".data) ".git".data⟩

/-- JavaScript `url.includes(sub)`: `sub` occurs contiguously in `s`. -/
def jsIncludes (s sub : String) : Bool :=
  (findFromAux sub.data s.data).isSome

/-- JavaScript `s.split(sep)` at the `String` level. -/
def jsSplitStr (sep : Char) (s : String) : List String :=
  (splitCharL sep s.data).map fun l => ⟨l⟩

/-- `parts.join(" ")`. -/
def joinSpace : List String → String
  | [] => ""
  | [s] => s
  | s :: rest => s ++ " " ++ joinSpace rest

/-- The host-dispatch block of `getGitHistoryDescription`: given the
normalized url, the raw hashes and the resolved short/long hashes, produce
`(diffDescription, diffLink, clickableLink, isClickable)` exactly as the
if/else-if/else chain does (github checked first, then googlesource). -/
def diffParts (url oldSha newSha oldShortSha newShortSha oldLongSha newLongSha : String) :
    String × String × String × Bool :=
  if jsIncludes url "github.com" then
    (url ++ "/compare/" ++ oldShortSha ++ "..." ++ newShortSha,
     url ++ "/compare/" ++ oldLongSha ++ "..." ++ newLongSha,
     url ++ "/commit/", true)
  else if jsIncludes url "googlesource.com" then
    (url ++ "/+log/" ++ oldShortSha ++ ".." ++ newShortSha,
     url ++ "/+log/" ++ oldLongSha ++ ".." ++ newLongSha,
     url ++ "/+/", true)
  else
    (url ++ " " ++ oldSha ++ ".." ++ newSha, "", "", false)

/-- One commit line of the details block: the log line is split on spaces
into full hash, short hash, date and email, the subject being the remaining
parts rejoined; an index beyond the split renders as the string
`"undefined"`, as interpolation of `undefined` does in JavaScript.  A
truthy (non-empty) `clickableLink` wraps the short hash in a markdown
link. -/
def renderEntryLine (clickableLink : String) (line : String) : String :=
  let parts := jsSplitStr ' ' line
  let hash := parts.getD 0 "undefined"
  let shortHash := parts.getD 1 "undefined"
  let date := parts.getD 2 "undefined"
  let email := parts.getD 3 "undefined"
  let subject := joinSpace (parts.drop 4)
  if clickableLink ≠ "" then
    "[" ++ shortHash ++ "](" ++ clickableLink ++ hash ++ ") " ++ date ++ " " ++ email
      ++ " " ++ subject ++ "\n"
  else
    shortHash ++ " " ++ date ++ " " ++ email ++ " " ++ subject ++ "\n"

/-- Argument list of the range-log invocation. -/
def gitLogArgs (oldLongSha newLongSha : String) : List String :=
  ["log", "--date=format:%Y-%m-%d", "--format=%H %h %ad %ae %s",
   oldLongSha ++ ".." ++ newLongSha]

/-- One environment-map update, `env[key] = value`. -/
def jsSetEnv (env : String → Option String) (key value : String) :
    String → Option String :=
  fun k => if k = key then some value else env k

/-- `sanitizeEnvs()`: copy the defined entries of `process.env` (on a
string-keyed partial map the copy is the identity) and force the locale and
timezone keys.  The result is a fresh map for the child process; the
process environment itself is a pure value and is never changed. -/
def sanitizeEnvs (procEnv : String → Option String) : String → Option String :=
  jsSetEnv (jsSetEnv (jsSetEnv procEnv "LANG" "C.UTF-8") "LC_ALL" "C.UTF-8") "TZ" "UTC"

/-- Oracle for everything outside the process: the process environment, the
name `mkdtempSync` returns, and the external `git` executable, which for a
given argument list either fails (a rejected promise, i.e. a thrown
exception) with a stringified error or succeeds with raw stdout text. -/
structure GitWorld where
  procEnv : String → Option String
  tmpDirName : String
  exec : List String → Except String String

/-- A recorded invocation of the external tool: arguments, working
directory, and the environment the child was started with. -/
structure ExecCall where
  args : List String
  cwd : Option String
  env : String → Option String

/-- Outcome of one `render` call: the value returned (`ok`) or the
exception that escaped (`error`), whether the temporary directory is gone
when the call ends, and the trace of external invocations made. -/
structure RenderOutcome where
  result : Except String String
  tmpDirRemoved : Bool
  calls : List ExecCall

/-- `getGitHistoryDescription(gitUpdate)` over the `GitWorld` oracle.
Mirrors the source step by step: normalize the url, make the temp
directory, clone (failure caught), resolve both short hashes (failures not
caught), resolve the old long hash (failure caught) and the new long hash
(failure not caught), run the range log (failure caught), then compose the
fragment.  `execGitWithStdout` trims trailing whitespace from stdout.  The
try/finally around the body removes the temporary directory on every exit
path, so `tmpDirRemoved` is true in every branch. -/
def getGitHistoryDescription (w : GitWorld) (g : GitUpdate) : RenderOutcome :=
  let url := normalizeUrl g.url
  let oldSha := g.oldSha
  let newSha := g.newSha
  let tempDir := w.tmpDirName
  let envs := sanitizeEnvs w.procEnv
  let cloneC : ExecCall := ⟨["clone", url, tempDir], none, envs⟩
  let oldShortC : ExecCall := ⟨["rev-parse", "--short", oldSha], some tempDir, envs⟩
  let newShortC : ExecCall := ⟨["rev-parse", "--short", newSha], some tempDir, envs⟩
  let oldLongC : ExecCall := ⟨["rev-parse", oldSha], some tempDir, envs⟩
  let newLongC : ExecCall := ⟨["rev-parse", newSha], some tempDir, envs⟩
  match w.exec ["clone", url, tempDir] with
  | .error e =>
    ⟨.ok ("Failed to clone " ++ url ++ ": " ++ e), true, [cloneC]⟩
  | .ok _ =>
    match (w.exec ["rev-parse", "--short", oldSha]).map jsTrimEnd with
    | .error e => ⟨.error e, true, [cloneC, oldShortC]⟩
    | .ok oldShortSha =>
      match (w.exec ["rev-parse", "--short", newSha]).map jsTrimEnd with
      | .error e => ⟨.error e, true, [cloneC, oldShortC, newShortC]⟩
      | .ok newShortSha =>
        match (w.exec ["rev-parse", oldSha]).map jsTrimEnd with
        | .error e =>
          ⟨.ok ("Failed to get long sha for " ++ oldSha ++ ": " ++ e), true,
            [cloneC, oldShortC, newShortC, oldLongC]⟩
        | .ok oldLongSha =>
          match (w.exec ["rev-parse", newSha]).map jsTrimEnd with
          | .error e =>
            ⟨.error e, true, [cloneC, oldShortC, newShortC, oldLongC, newLongC]⟩
          | .ok newLongSha =>
            let logC : ExecCall :=
              ⟨gitLogArgs oldLongSha newLongSha, some tempDir, envs⟩
            match (w.exec (gitLogArgs oldLongSha newLongSha)).map jsTrimEnd with
            | .error e =>
              ⟨.ok ("Failed to get git log: " ++ e), true,
                [cloneC, oldShortC, newShortC, oldLongC, newLongC, logC]⟩
            | .ok logOut =>
              let logLines := (jsSplitStr '\n' logOut).filter fun l => 0 < l.length
              let dp := diffParts url oldSha newSha oldShortSha newShortSha
                oldLongSha newLongSha
              let firstLine :=
                if dp.2.2.2 then "- [" ++ dp.1 ++ "](" ++ dp.2.1 ++ ")\n\n"
                else "- " ++ dp.1 ++ "\n\n"
              let entries := String.join (logLines.map (renderEntryLine dp.2.2.1))
              ⟨.ok (firstLine ++ "<details><summary>Details</summary>\n\n" ++ entries
                  ++ "</details>\n\n"), true,
                [cloneC, oldShortC, newShortC, oldLongC, newLongC, logC]⟩

/-! ## Specification-side definitions and concrete inputs -/

/-- Per-row qualification, written the way the specification describes it:
a row qualifies when its `update` cell is exactly `digest`, its `package`
and `change` cells are present and non-empty, and the change cell matches
the hash-pair pattern; the record then carries the package cell verbatim
and the two captured hex runs. -/
def qualifiesTo (u : PackageUpdate) : Option GitUpdate :=
  if u.update? = some "digest".data then
    match u.package?, u.change? with
    | some p, some c =>
      if p = [] ∨ c = [] then none
      else
        match findChangeMatch c with
        | some (o, n) => some ⟨⟨p⟩, ⟨o⟩, ⟨n⟩⟩
        | none => none
    | _, _ => none
  else none

/-- Every data row of the located table has at most as many cells as the
header row (the condition under which the header-to-index mapping is total
and `parseTable` cannot throw). -/
def rowsOKb (body : List Char) : Bool :=
  match ciFindHeader body with
  | none => true
  | some i =>
    (tableDataOf body (tableStartOf body i)).all
      fun row => row.length ≤ (tableHeaderOf body (tableStartOf body i)).length

/-- A parsed update record used as concrete input by several witnesses. -/
def uRec : GitUpdate := ⟨"https://github.com/acme/lib.git/", "aaaaaaa", "bbbbbbb"⟩

/-- A world in which every external invocation succeeds, with fixed
rev-parse answers and a one-commit log. -/
def wOK : GitWorld where
  procEnv := fun k => if k = "PATH" then some "/usr/bin" else none
  tmpDirName := "/tmp/git-history-w"
  exec := fun args =>
    match args with
    | ["rev-parse", "--short", "aaaaaaa"] => .ok "aaaaaa1"
    | ["rev-parse", "--short", "bbbbbbb"] => .ok "bbbbbb2"
    | ["rev-parse", "aaaaaaa"] => .ok "aaaaaaaa1"
    | ["rev-parse", "bbbbbbb"] => .ok "bbbbbbbb2"
    | "log" :: _ => .ok "H1 h1 2024-01-02 a@example.com first subject\n"
    | _ => .ok ""

/-- A world in which the clone succeeds but any short rev-parse fails. -/
def wShortFail : GitWorld where
  procEnv := fun _ => none
  tmpDirName := "/tmp/git-history-x"
  exec := fun args =>
    match args with
    | "clone" :: _ => .ok ""
    | "rev-parse" :: "--short" :: _ => .error "Error: bad revision"
    | _ => .ok ""

/-- The clone invocation recorded when rendering `uRec` in `wOK`. -/
def cloneCallW : ExecCall :=
  ⟨["clone", "https://github.com/acme/lib", "/tmp/git-history-w"], none,
    sanitizeEnvs wOK.procEnv⟩

/-- The remaining five invocations recorded when rendering `uRec` in
`wOK`. -/
def wOKrest : List ExecCall :=
  [⟨["rev-parse", "--short", "aaaaaaa"], some "/tmp/git-history-w", sanitizeEnvs wOK.procEnv⟩,
   ⟨["rev-parse", "--short", "bbbbbbb"], some "/tmp/git-history-w", sanitizeEnvs wOK.procEnv⟩,
   ⟨["rev-parse", "aaaaaaa"], some "/tmp/git-history-w", sanitizeEnvs wOK.procEnv⟩,
   ⟨["rev-parse", "bbbbbbb"], some "/tmp/git-history-w", sanitizeEnvs wOK.procEnv⟩,
   ⟨gitLogArgs "aaaaaaaa1" "bbbbbbbb2", some "/tmp/git-history-w", sanitizeEnvs wOK.procEnv⟩]

/-! ## Helper lemmas about the string primitives -/

theorem take_append_le {α : Type} (l m : List α) (n : Nat) (h : n ≤ l.length) :
    (l ++ m).take n = l.take n := by
  induction l generalizing n with
  | nil =>
    have : n = 0 := Nat.le_zero.mp h
    simp [this]
  | cons x xs ih =>
    cases n with
    | zero => simp
    | succ k =>
      simp only [List.cons_append, List.take_succ_cons]
      rw [ih k (Nat.succ_le_succ_iff.mp h)]

theorem drop_append_le {α : Type} (l m : List α) (n : Nat) (h : n ≤ l.length) :
    (l ++ m).drop n = l.drop n ++ m := by
  induction l generalizing n with
  | nil =>
    have : n = 0 := Nat.le_zero.mp h
    simp [this]
  | cons x xs ih =>
    cases n with
    | zero => simp
    | succ k =>
      simp only [List.cons_append, List.drop_succ_cons]
      exact ih k (Nat.succ_le_succ_iff.mp h)

theorem pfx_append_iff {pat d : List Char} (m : List Char) (h : pat.length ≤ d.length) :
    pat <+: d ++ m ↔ pat <+: d := by
  constructor
  · intro hp
    rw [List.prefix_iff_eq_take] at hp ⊢
    rwa [take_append_le d m pat.length h] at hp
  · intro hp
    exact hp.trans (List.prefix_append d m)

theorem findFromAux_nil (s : List Char) : findFromAux [] s = some 0 := by
  cases s with
  | nil => simp [findFromAux]
  | cons c rest => simp [findFromAux, List.nil_prefix]

theorem findFromAux_some_iff (pat : List Char) (s : List Char) (i : Nat) :
    findFromAux pat s = some i ↔
      (pat <+: s.drop i ∧ ∀ j, j < i → ¬ pat <+: s.drop j) := by
  induction s generalizing i with
  | nil =>
    by_cases hp : pat = []
    · subst hp
      simp only [findFromAux, if_pos rfl, List.drop_nil]
      constructor
      · intro h
        have h0 : i = 0 := by injection h with h; omega
        subst h0
        exact ⟨List.nil_prefix, fun j hj => absurd hj (Nat.not_lt_zero j)⟩
      · rintro ⟨-, hmin⟩
        by_cases h0 : i = 0
        · subst h0; rfl
        · exact absurd List.nil_prefix (hmin 0 (by omega))
    · simp [findFromAux, hp, List.prefix_nil]
  | cons c rest ih =>
    by_cases hp : pat <+: c :: rest
    · simp only [findFromAux, if_pos hp]
      cases i with
      | zero =>
        simp only [List.drop_zero]
        constructor
        · intro _
          exact ⟨hp, fun j hj => absurd hj (Nat.not_lt_zero j)⟩
        · intro _
          trivial
      | succ k =>
        constructor
        · intro h
          injection h with h
          exact absurd h (by omega)
        · rintro ⟨-, hmin⟩
          exact absurd hp (hmin 0 (Nat.succ_pos k))
    · simp only [findFromAux, if_neg hp, Option.map_eq_some']
      cases i with
      | zero =>
        constructor
        · rintro ⟨a, -, ha⟩
          exact absurd ha (by omega)
        · rintro ⟨hpre, -⟩
          exact absurd (by simpa using hpre) hp
      | succ k =>
        constructor
        · rintro ⟨a, hfind, ha⟩
          have hak : a = k := by omega
          rw [hak] at hfind
          obtain ⟨h1, h2⟩ := (ih k).mp hfind
          refine ⟨by simpa using h1, ?_⟩
          intro j hj
          cases j with
          | zero => simpa using hp
          | succ m => simpa using h2 m (by omega)
        · rintro ⟨hpre, hmin⟩
          refine ⟨k, (ih k).mpr ⟨by simpa using hpre, ?_⟩, rfl⟩
          intro j hj
          simpa using hmin (j + 1) (by omega)

theorem findFromAux_none_iff (pat : List Char) (s : List Char) :
    findFromAux pat s = none ↔ ∀ j, ¬ pat <+: s.drop j := by
  constructor
  · induction s with
    | nil =>
      intro hn j
      by_cases hp : pat = []
      · subst hp; simp [findFromAux] at hn
      · simp [List.prefix_nil, hp]
    | cons c rest ih =>
      intro hn j
      by_cases hp : pat <+: c :: rest
      · simp [findFromAux, hp] at hn
      · simp only [findFromAux, if_neg hp, Option.map_eq_none'] at hn
        cases j with
        | zero => simpa using hp
        | succ k => simpa using ih hn k
  · intro hall
    cases hfind : findFromAux pat s with
    | none => rfl
    | some i =>
      obtain ⟨h1, -⟩ := (findFromAux_some_iff pat s i).mp hfind
      exact absurd h1 (hall i)

theorem findFromAux_isSome_of (pat s : List Char) (i : Nat) (h : pat <+: s.drop i) :
    (findFromAux pat s).isSome := by
  cases hfind : findFromAux pat s with
  | none => exact absurd h ((findFromAux_none_iff pat s).mp hfind i)
  | some k => rfl

theorem findFromAux_length_le (pat s : List Char) (i : Nat)
    (hne : pat ≠ []) (h : findFromAux pat s = some i) :
    i + pat.length ≤ s.length := by
  obtain ⟨h1, -⟩ := (findFromAux_some_iff pat s i).mp h
  have hlen := h1.length_le
  rw [List.length_drop] at hlen
  have hi : i ≤ s.length := by
    by_contra hgt
    have hdrop : s.drop i = [] := List.drop_eq_nil_of_le (by omega)
    rw [hdrop, List.prefix_nil] at h1
    exact hne h1
  omega

theorem findFromAux_append_left (pat l m : List Char) (i : Nat)
    (h : findFromAux pat l = some i) :
    findFromAux pat (l ++ m) = some i := by
  by_cases hne : pat = []
  · subst hne
    rw [findFromAux_nil] at h
    injection h with h
    rw [findFromAux_nil, h]
  · obtain ⟨h1, hmin⟩ := (findFromAux_some_iff pat l i).mp h
    have hbound := findFromAux_length_le pat l i hne h
    refine (findFromAux_some_iff pat (l ++ m) i).mpr ⟨?_, ?_⟩
    · rw [drop_append_le l m i (by omega)]
      exact h1.trans (List.prefix_append _ _)
    · intro j hj
      rw [drop_append_le l m j (by omega)]
      rw [pfx_append_iff m (by rw [List.length_drop]; omega)]
      exact hmin j hj

theorem findFromAux_sep_indep (pat a b c : List Char) :
    findFromAux pat (a ++ (pat ++ b)) = findFromAux pat (a ++ (pat ++ c)) := by
  induction a with
  | nil =>
    simp only [List.nil_append]
    cases pat with
    | nil => rw [findFromAux_nil, findFromAux_nil]
    | cons p ps =>
      have h1 : (p :: ps) <+: (p :: ps) ++ b := List.prefix_append _ _
      have h2 : (p :: ps) <+: (p :: ps) ++ c := List.prefix_append _ _
      simp only [List.cons_append] at h1 h2 ⊢
      rw [findFromAux, findFromAux, if_pos h1, if_pos h2]
  | cons x xs ih =>
    have hlen : pat.length ≤ (x :: (xs ++ pat)).length := by
      simp [List.length_append]
      omega
    have hiff1 : pat <+: x :: (xs ++ (pat ++ b)) ↔ pat <+: x :: (xs ++ pat) := by
      have h : pat <+: (x :: (xs ++ pat)) ++ b ↔ pat <+: x :: (xs ++ pat) :=
        pfx_append_iff b hlen
      simpa [List.append_assoc] using h
    have hiff2 : pat <+: x :: (xs ++ (pat ++ c)) ↔ pat <+: x :: (xs ++ pat) := by
      have h : pat <+: (x :: (xs ++ pat)) ++ c ↔ pat <+: x :: (xs ++ pat) :=
        pfx_append_iff c hlen
      simpa [List.append_assoc] using h
    have hshow :
        (findFromAux pat ((x :: xs) ++ (pat ++ b)) = findFromAux pat ((x :: xs) ++ (pat ++ c)))
        = ((if pat <+: x :: (xs ++ (pat ++ b)) then some 0
            else (findFromAux pat (xs ++ (pat ++ b))).map (· + 1)) =
           (if pat <+: x :: (xs ++ (pat ++ c)) then some 0
            else (findFromAux pat (xs ++ (pat ++ c))).map (· + 1))) := rfl
    rw [hshow]
    by_cases hp : pat <+: x :: (xs ++ pat)
    · rw [if_pos (hiff1.mpr hp), if_pos (hiff2.mpr hp)]
    · rw [if_neg (fun h => hp (hiff1.mp h)), if_neg (fun h => hp (hiff2.mp h)), ih]

theorem findFromAux_sep_exists (pat a b : List Char) :
    ∃ k, findFromAux pat (a ++ (pat ++ b)) = some k ∧ k ≤ a.length := by
  have hocc : pat <+: (a ++ (pat ++ b)).drop a.length := by
    rw [List.drop_left]
    exact List.prefix_append _ _
  have hsome := findFromAux_isSome_of pat (a ++ (pat ++ b)) a.length hocc
  cases hfind : findFromAux pat (a ++ (pat ++ b)) with
  | none => rw [hfind] at hsome; simp at hsome
  | some k =>
    refine ⟨k, rfl, ?_⟩
    obtain ⟨-, hmin⟩ := (findFromAux_some_iff _ _ _).mp hfind
    by_contra hgt
    exact hmin a.length (by omega) hocc

theorem pfx_map (f : Char → Char) {a b : List Char} (h : a <+: b) :
    a.map f <+: b.map f := by
  obtain ⟨t, rfl⟩ := h
  exact ⟨t.map f, (List.map_append f a t).symm⟩

theorem take_pfx {α : Type} (n : Nat) (l : List α) : l.take n <+: l :=
  ⟨l.drop n, List.take_append_drop n l⟩

/-- The `indexOf` of the text matched by the case-insensitive header regex
is the regex match position itself: the matched slice occurs there exactly,
and an earlier exact occurrence would be an earlier case-insensitive one. -/
theorem tableStart_eq (body : List Char) (i : Nat) (h : ciFindHeader body = some i) :
    tableStartOf body i = i := by
  obtain ⟨h1, hmin⟩ := (findFromAux_some_iff _ _ _).mp h
  have hlenpat : (lc headerPat).length = headerPat.length := List.length_map _ _
  have hmatched : lc ((body.drop i).take headerPat.length) = lc headerPat := by
    have he := List.prefix_iff_eq_take.mp h1
    rw [hlenpat] at he
    unfold lc
    rw [List.map_take, List.map_drop]
    exact he.symm
  have hfind : findFromAux ((body.drop i).take headerPat.length) body = some i := by
    refine (findFromAux_some_iff _ _ _).mpr ⟨take_pfx _ _, ?_⟩
    intro j hj hpre
    have hlc : lc ((body.drop i).take headerPat.length) <+: lc (body.drop j) :=
      pfx_map Char.toLower hpre
    rw [hmatched] at hlc
    unfold lc at hlc
    rw [List.map_drop] at hlc
    exact hmin j hj hlc
  unfold tableStartOf
  rw [hfind]
  rfl

theorem splitCharL_ne_nil (sep : Char) (s : List Char) : splitCharL sep s ≠ [] := by
  cases s with
  | nil => simp [splitCharL]
  | cons c rest =>
    simp only [splitCharL]
    by_cases h : c = sep
    · simp [h]
    · simp only [if_neg h]
      cases hr : splitCharL sep rest <;> simp

theorem unsplit_split (sep : Char) (s : List Char) :
    unsplitCharL sep (splitCharL sep s) = s := by
  induction s with
  | nil => rfl
  | cons c rest ih =>
    obtain ⟨h, t, hr⟩ : ∃ h t, splitCharL sep rest = h :: t := by
      cases hr : splitCharL sep rest with
      | nil => exact absurd hr (splitCharL_ne_nil sep rest)
      | cons h t => exact ⟨h, t, rfl⟩
    rw [hr] at ih
    by_cases hc : c = sep
    · rw [hc]
      have hsplit : splitCharL sep (sep :: rest) = [] :: h :: t := by
        simp [splitCharL, hr]
      rw [hsplit]
      show ([] : List Char) ++ sep :: unsplitCharL sep (h :: t) = sep :: rest
      rw [List.nil_append, ih]
    · have hsplit : splitCharL sep (c :: rest) = (c :: h) :: t := by
        simp only [splitCharL, if_neg hc, hr]
      rw [hsplit]
      cases t with
      | nil =>
        show c :: h = c :: rest
        have hh : h = rest := ih
        rw [hh]
      | cons x xs =>
        show (c :: h) ++ sep :: unsplitCharL sep (x :: xs) = c :: rest
        rw [List.cons_append]
        exact congrArg (c :: ·) ih

theorem splitCharL_sep_cons (sep : Char) (a b : List Char) (ha : sep ∉ a) :
    splitCharL sep (a ++ sep :: b) = a :: splitCharL sep b := by
  induction a with
  | nil => simp [splitCharL]
  | cons x a2 ih =>
    have hx : x ≠ sep := fun h => ha (by simp [h])
    have ha2 : sep ∉ a2 := fun h => ha (List.mem_cons_of_mem x h)
    rw [List.cons_append]
    simp only [splitCharL, if_neg hx, ih ha2]

theorem strMk_append (a b : List Char) : (⟨a⟩ : String) ++ ⟨b⟩ = ⟨a ++ b⟩ := rfl

theorem strMk_data (s : String) : (⟨s.data⟩ : String) = s := rfl

theorem strData_append (a b : String) : (a ++ b).data = a.data ++ b.data := rfl

theorem joinSpace_map (parts : List (List Char)) :
    joinSpace (parts.map fun l => (⟨l⟩ : String)) = ⟨unsplitCharL ' ' parts⟩ := by
  induction parts with
  | nil => rfl
  | cons a rest ih =>
    cases rest with
    | nil => rfl
    | cons b t =>
      show (⟨a⟩ : String) ++ " " ++ joinSpace ((b :: t).map fun l => (⟨l⟩ : String))
          = (⟨a ++ ' ' :: unsplitCharL ' ' (b :: t)⟩ : String)
      rw [ih]
      show (⟨a⟩ : String) ++ ⟨[' ']⟩ ++ ⟨unsplitCharL ' ' (b :: t)⟩ = _
      rw [strMk_append, strMk_append, List.append_assoc]
      rfl

theorem fillUpdate_ok (th : List (List Char)) (row : List (List Char)) :
    ∀ (i : Nat) (u : PackageUpdate), i + row.length ≤ th.length →
      ∃ v, fillUpdate th i row u = .ok v := by
  induction row with
  | nil =>
    intro i u _
    exact ⟨u, rfl⟩
  | cons x rest ih =>
    intro i u h
    have hi : i < th.length := by
      simp only [List.length_cons] at h
      omega
    cases hth : th.get? i with
    | none =>
      rw [List.get?_eq_none] at hth
      omega
    | some hd =>
      simp only [fillUpdate, hth]
      exact ih (i + 1) _ (by simp only [List.length_cons] at h; omega)

theorem buildUpdates_ok (th : List (List Char)) (rows : List (List (List Char)))
    (h : ∀ row ∈ rows, row.length ≤ th.length) :
    ∃ us, buildUpdates th rows = .ok us := by
  induction rows with
  | nil => exact ⟨[], rfl⟩
  | cons r rest ih =>
    obtain ⟨v, hv⟩ := fillUpdate_ok th r 0 {} (by simpa using h r (List.mem_cons_self r rest))
    obtain ⟨us, hus⟩ := ih fun row hr => h row (List.mem_cons_of_mem r hr)
    refine ⟨v :: us, ?_⟩
    simp only [buildUpdates, hv, hus]
    rfl

theorem takeWhile_all_append (p : Char → Bool) (a : List Char) (b : Char) (t : List Char)
    (ha : ∀ x ∈ a, p x) (hb : p b = false) :
    (a ++ b :: t).takeWhile p = a := by
  induction a with
  | nil => simp [List.takeWhile_cons, hb]
  | cons x xs ih =>
    have hx : p x = true := ha x (List.mem_cons_self x xs)
    simp only [List.cons_append, List.takeWhile_cons, hx, if_true]
    rw [ih fun y hy => ha y (List.mem_cons_of_mem x hy)]

theorem dropWhile_all_append (p : Char → Bool) (a : List Char) (b : Char) (t : List Char)
    (ha : ∀ x ∈ a, p x) (hb : p b = false) :
    (a ++ b :: t).dropWhile p = b :: t := by
  induction a with
  | nil => simp [List.dropWhile_cons, hb]
  | cons x xs ih =>
    have hx : p x = true := ha x (List.mem_cons_self x xs)
    simp only [List.cons_append, List.dropWhile_cons, hx, if_true]
    exact ih fun y hy => ha y (List.mem_cons_of_mem x hy)

theorem drop_takeWhile (p : Char → Bool) (l : List Char) :
    l.drop (l.takeWhile p).length = l.dropWhile p := by
  have h : l.takeWhile p ++ l.dropWhile p = l := List.takeWhile_append_dropWhile p l
  have h2 : (l.takeWhile p ++ l.dropWhile p).drop (l.takeWhile p).length = l.dropWhile p :=
    List.drop_left _ _
  rw [h] at h2
  exact h2

theorem occurs_iff_isInfix (pat s : List Char) :
    (∃ i, pat <+: s.drop i) ↔ pat <:+: s := by
  constructor
  · rintro ⟨i, t, ht⟩
    refine ⟨s.take i, t, ?_⟩
    rw [List.append_assoc, ht, List.take_append_drop]
  · rintro ⟨a, b, hab⟩
    refine ⟨a.length, ?_⟩
    rw [← hab, List.append_assoc, List.drop_left]
    exact ⟨b, rfl⟩

theorem ciFindHeader_none_iff (body : List Char) :
    ciFindHeader body = none ↔ ¬ lc headerPat <:+: lc body := by
  unfold ciFindHeader
  rw [findFromAux_none_iff]
  constructor
  · intro h hinf
    obtain ⟨i, hi⟩ := (occurs_iff_isInfix _ _).mpr hinf
    exact h i hi
  · intro h i hi
    exact h ((occurs_iff_isInfix _ _).mp ⟨i, hi⟩)

theorem stripSuffixL_of_not (s suf : List Char) (h : ¬ suf <:+ s) :
    stripSuffixL s suf = s := by
  unfold stripSuffixL
  rw [if_neg]
  intro hb
  exact h (List.isSuffixOf_iff_suffix.mp hb)

theorem stripSuffixL_append (s suf : List Char) : stripSuffixL (s ++ suf) suf = s := by
  unfold stripSuffixL
  rw [if_pos (List.isSuffixOf_iff_suffix.mpr ⟨s, rfl⟩)]
  unfold dropRightL
  rw [List.length_append, Nat.add_sub_cancel]
  exact List.take_left s suf

theorem singleton_suffix_append (x d : Char) (l : List Char) :
    [x] <:+ l ++ [d] ↔ x = d := by
  constructor
  · rintro ⟨t, ht⟩
    have h1 : (t ++ [x]).getLast? = some x := List.getLast?_concat t
    have h2 : (l ++ [d]).getLast? = some d := List.getLast?_concat l
    rw [ht, h2] at h1
    injection h1 with h1
    exact h1.symm
  · rintro rfl
    exact ⟨l, rfl⟩

/-! ## Lemmas about the change-cell pattern -/

theorem changeMatchAt_sound (s o n : List Char) (h : changeMatchAt s = some (o, n)) :
    (∀ x ∈ o, isHexChar x) ∧ 7 ≤ o.length ∧ o.length ≤ 40 ∧
    (∀ x ∈ n, isHexChar x) ∧ 7 ≤ n.length ∧ n.length ≤ 40 ∧
    ∃ tail, s = btick :: (o ++ (midArrow ++ (n ++ btick :: tail))) := by
  cases s with
  | nil => simp [changeMatchAt] at h
  | cons c rest =>
    simp only [changeMatchAt] at h
    split at h
    case isFalse => exact absurd h (by simp)
    case isTrue hc =>
      split at h
      case isFalse => exact absurd h (by simp)
      case isTrue hlen1 =>
        split at h
        case h_2 => exact absurd h (by simp)
        case h_1 c1 c2 c3 c4 c5 c6 rest2 heq =>
          split at h
          case isFalse => exact absurd h (by simp)
          case isTrue hchars =>
            split at h
            case isFalse => exact absurd h (by simp)
            case isTrue hlen2 =>
              split at h
              case h_2 => exact absurd h (by simp)
              case h_1 c7 tail2 heq2 =>
                split at h
                case isFalse => exact absurd h (by simp)
                case isTrue hc7 =>
                  injection h with h
                  injection h with ho hn
                  subst ho
                  subst hn
                  subst hc
                  subst hc7
                  simp only [Bool.and_eq_true, decide_eq_true_eq] at hlen1 hlen2 hchars
                  obtain ⟨⟨⟨⟨⟨hc1, hc2⟩, hc3⟩, hc4⟩, hc5⟩, hc6⟩ := hchars
                  subst hc1; subst hc2; subst hc3; subst hc4; subst hc5; subst hc6
                  have hrest : rest = rest.takeWhile isHexChar ++ rest.dropWhile isHexChar :=
                    (List.takeWhile_append_dropWhile _ _).symm
                  rw [drop_takeWhile] at heq
                  have hrest2 : rest2 = rest2.takeWhile isHexChar ++ rest2.dropWhile isHexChar :=
                    (List.takeWhile_append_dropWhile _ _).symm
                  rw [drop_takeWhile] at heq2
                  refine ⟨fun x hx => List.mem_takeWhile_imp hx, hlen1.1, hlen1.2,
                    fun x hx => List.mem_takeWhile_imp hx, hlen2.1, hlen2.2, tail2, ?_⟩
                  have hassemble :
                      rest.takeWhile isHexChar ++
                        (midArrow ++ (rest2.takeWhile isHexChar ++ btick :: tail2)) = rest := by
                    rw [show midArrow ++ (rest2.takeWhile isHexChar ++ btick :: tail2)
                        = btick :: ' ' :: '-' :: '>' :: ' ' :: btick ::
                          (rest2.takeWhile isHexChar ++ btick :: tail2) from rfl]
                    rw [← heq2, ← hrest2, ← heq, ← hrest]
                  rw [hassemble]

theorem findChangeMatch_sound (s o n : List Char) (h : findChangeMatch s = some (o, n)) :
    (∀ x ∈ o, isHexChar x) ∧ 7 ≤ o.length ∧ o.length ≤ 40 ∧
    (∀ x ∈ n, isHexChar x) ∧ 7 ≤ n.length ∧ n.length ≤ 40 ∧
    ∃ pre tail, s = pre ++ btick :: (o ++ (midArrow ++ (n ++ btick :: tail))) := by
  induction s with
  | nil => simp [findChangeMatch] at h
  | cons c rest ih =>
    rw [findChangeMatch] at h
    cases hm : changeMatchAt (c :: rest) with
    | some r =>
      rw [hm] at h
      injection h with h
      rw [h] at hm
      obtain ⟨a1, a2, a3, a4, a5, a6, tail, ht⟩ := changeMatchAt_sound _ o n hm
      exact ⟨a1, a2, a3, a4, a5, a6, [], tail, by rw [ht]; rfl⟩
    | none =>
      rw [hm] at h
      obtain ⟨a1, a2, a3, a4, a5, a6, pre, tail, ht⟩ := ih h
      exact ⟨a1, a2, a3, a4, a5, a6, c :: pre, tail, by rw [ht]; rfl⟩

theorem changeMatchAt_complete (h1 h2 tail : List Char)
    (ha1 : ∀ x ∈ h1, isHexChar x) (hl1 : 7 ≤ h1.length) (hu1 : h1.length ≤ 40)
    (ha2 : ∀ x ∈ h2, isHexChar x) (hl2 : 7 ≤ h2.length) (hu2 : h2.length ≤ 40) :
    changeMatchAt (btick :: (h1 ++ (midArrow ++ (h2 ++ btick :: tail)))) = some (h1, h2) := by
  have hbhex : isHexChar btick = false := by decide
  have hmid : midArrow ++ (h2 ++ btick :: tail)
      = btick :: (' ' :: '-' :: '>' :: ' ' :: btick :: (h2 ++ btick :: tail)) := rfl
  have ht1 : (h1 ++ (midArrow ++ (h2 ++ btick :: tail))).takeWhile isHexChar = h1 := by
    rw [hmid]
    exact takeWhile_all_append isHexChar h1 btick _ ha1 hbhex
  have ht2 : (h2 ++ btick :: tail).takeWhile isHexChar = h2 :=
    takeWhile_all_append isHexChar h2 btick tail ha2 hbhex
  have hdw1 : (h1 ++ (midArrow ++ (h2 ++ btick :: tail))).dropWhile isHexChar
      = btick :: ' ' :: '-' :: '>' :: ' ' :: btick :: (h2 ++ btick :: tail) := by
    rw [hmid]
    exact dropWhile_all_append isHexChar h1 btick _ ha1 hbhex
  have hdw2 : (h2 ++ btick :: tail).dropWhile isHexChar = btick :: tail :=
    dropWhile_all_append isHexChar h2 btick tail ha2 hbhex
  simp only [changeMatchAt, drop_takeWhile, ht1, hdw1, ht2, hdw2]
  simp only [hmid]
  simp [hl1, hu1, hl2, hu2, ht2, hdw2]

theorem findChangeMatch_isSome_append (pre s : List Char)
    (h : (changeMatchAt s).isSome) :
    (findChangeMatch (pre ++ s)).isSome := by
  induction pre with
  | nil =>
    cases s with
    | nil => simp [changeMatchAt] at h
    | cons c rest =>
      rw [List.nil_append, findChangeMatch]
      cases hm : changeMatchAt (c :: rest) with
      | some r => simp
      | none => rw [hm] at h; simp at h
  | cons x pre2 ih =>
    rw [List.cons_append, findChangeMatch]
    cases hm : changeMatchAt (x :: (pre2 ++ s)) with
    | some r => simp
    | none => exact ih

theorem toGitUpdates_filter (us : List PackageUpdate) :
    toGitUpdates (us.filter fun u => u.update? = some "digest".data)
      = us.filterMap qualifiesTo := by
  induction us with
  | nil => rfl
  | cons u rest ih =>
    rw [List.filter_cons, List.filterMap_cons]
    by_cases hd : u.update? = some "digest".data
    · rw [if_pos (by simpa using hd)]
      cases hp : u.package? with
      | none =>
        simp only [toGitUpdates, hp, qualifiesTo, if_pos hd, ih]
      | some p =>
        cases hc : u.change? with
        | none =>
          simp only [toGitUpdates, hp, hc, qualifiesTo, if_pos hd, ih]
        | some c =>
          by_cases hpc : p = [] ∨ c = []
          · simp only [toGitUpdates, hp, hc, if_pos hpc, qualifiesTo, if_pos hd, ih]
          · simp only [toGitUpdates, hp, hc, if_neg hpc, qualifiesTo, if_pos hd]
            cases hm : findChangeMatch c with
            | none => simp [ih]
            | some r =>
              cases r with
              | mk o n => simp [ih]
    · rw [if_neg (by simpa using hd)]
      have hq : qualifiesTo u = none := by
        unfold qualifiesTo
        rw [if_neg hd]
      rw [hq, ih]

theorem lc_append (a b : List Char) : lc (a ++ b) = lc a ++ lc b :=
  List.map_append _ a b

theorem ciFindHeader_append (p X : List Char) (i : Nat)
    (h : ciFindHeader p = some i) : ciFindHeader (p ++ X) = some i := by
  unfold ciFindHeader at h ⊢
  rw [lc_append]
  exact findFromAux_append_left _ _ _ _ h

theorem ciFindHeader_bound (p : List Char) (i : Nat) (h : ciFindHeader p = some i) :
    i + headerPat.length ≤ p.length := by
  unfold ciFindHeader at h
  have hne : lc headerPat ≠ [] := by decide
  have := findFromAux_length_le _ _ _ hne h
  unfold lc at this
  rw [List.length_map, List.length_map] at this
  exact this

/-- Text after the first blank line following the header does not influence
the parse: two bodies sharing the prefix `p ++ "\n\n"` (with the
case-insensitive header occurring inside `p`) parse identically. -/
theorem parseTable_suffix_indep (p s t : List Char) (h : (ciFindHeader p).isSome) :
    parseTable (p ++ '\n' :: '\n' :: s) = parseTable (p ++ '\n' :: '\n' :: t) := by
  obtain ⟨i, hi⟩ := Option.isSome_iff_exists.mp h
  have hle := ciFindHeader_bound p i hi
  have hip : i ≤ p.length := by omega
  have hfs : ciFindHeader (p ++ '\n' :: '\n' :: s) = some i := ciFindHeader_append _ _ _ hi
  have hft : ciFindHeader (p ++ '\n' :: '\n' :: t) = some i := ciFindHeader_append _ _ _ hi
  have hts : tableStartOf (p ++ '\n' :: '\n' :: s) i = i := tableStart_eq _ _ hfs
  have htt : tableStartOf (p ++ '\n' :: '\n' :: t) i = i := tableStart_eq _ _ hft
  have hdrops : (p ++ '\n' :: '\n' :: s).drop i = p.drop i ++ (['\n', '\n'] ++ s) :=
    drop_append_le p _ i hip
  have hdropt : (p ++ '\n' :: '\n' :: t).drop i = p.drop i ++ (['\n', '\n'] ++ t) :=
    drop_append_le p _ i hip
  obtain ⟨k, hk, hkle⟩ := findFromAux_sep_exists ['\n', '\n'] (p.drop i) s
  have hkt : findFromAux ['\n', '\n'] (p.drop i ++ (['\n', '\n'] ++ t)) = some k := by
    rw [← findFromAux_sep_indep ['\n', '\n'] (p.drop i) s t]
    exact hk
  rw [List.length_drop] at hkle
  have hes : tableEndOf (p ++ '\n' :: '\n' :: s) i = some (k + i) := by
    unfold tableEndOf
    rw [hdrops, hk]
    rfl
  have het : tableEndOf (p ++ '\n' :: '\n' :: t) i = some (k + i) := by
    unfold tableEndOf
    rw [hdropt, hkt]
    rfl
  have hbody : tableBodyOf (p ++ '\n' :: '\n' :: s) i = tableBodyOf (p ++ '\n' :: '\n' :: t) i := by
    unfold tableBodyOf
    rw [hes, het]
    show (List.take (k + i) (p ++ '\n' :: '\n' :: s)).drop i
        = (List.take (k + i) (p ++ '\n' :: '\n' :: t)).drop i
    rw [take_append_le p _ (k + i) (by omega), take_append_le p _ (k + i) (by omega)]
  have hat : parseTableAt (p ++ '\n' :: '\n' :: s) i = parseTableAt (p ++ '\n' :: '\n' :: t) i := by
    unfold parseTableAt tableHeaderOf tableDataOf tableRowsOf
    rw [hbody]
  unfold parseTable
  rw [hfs, hft]
  show Except.map some (parseTableAt (p ++ '\n' :: '\n' :: s) (tableStartOf (p ++ '\n' :: '\n' :: s) i))
      = Except.map some (parseTableAt (p ++ '\n' :: '\n' :: t) (tableStartOf (p ++ '\n' :: '\n' :: t) i))
  rw [hts, htt, hat]

theorem renderEntryLine_fields (cl fh sh d em s : String)
    (h1 : ' ' ∉ fh.data) (h2 : ' ' ∉ sh.data) (h3 : ' ' ∉ d.data) (h4 : ' ' ∉ em.data) :
    renderEntryLine cl (fh ++ " " ++ sh ++ " " ++ d ++ " " ++ em ++ " " ++ s) =
      if cl ≠ "" then
        "[" ++ sh ++ "](" ++ cl ++ fh ++ ") " ++ d ++ " " ++ em ++ " " ++ s ++ "\n"
      else sh ++ " " ++ d ++ " " ++ em ++ " " ++ s ++ "\n" := by
  have hsp : (" " : String).data = [' '] := rfl
  have hdata : (fh ++ " " ++ sh ++ " " ++ d ++ " " ++ em ++ " " ++ s).data
      = fh.data ++ ' ' :: (sh.data ++ ' ' :: (d.data ++ ' ' :: (em.data ++ ' ' :: s.data))) := by
    simp [strData_append, hsp, List.append_assoc]
  have hsplit : splitCharL ' ' (fh ++ " " ++ sh ++ " " ++ d ++ " " ++ em ++ " " ++ s).data
      = fh.data :: sh.data :: d.data :: em.data :: splitCharL ' ' s.data := by
    rw [hdata, splitCharL_sep_cons ' ' _ _ h1, splitCharL_sep_cons ' ' _ _ h2,
      splitCharL_sep_cons ' ' _ _ h3, splitCharL_sep_cons ' ' _ _ h4]
  unfold renderEntryLine jsSplitStr
  rw [hsplit]
  simp only [List.map_cons, List.getD_cons_zero, List.getD_cons_succ,
    List.drop_succ_cons, List.drop_zero]
  rw [joinSpace_map, unsplit_split]

/-! ## Claim theorems -/

/-- C7, amended: `parse(body)` returns null exactly when the header
`| Package | Update | Change |` does not occur case-insensitively in
`body`; and whenever the header is present, any normal return of `parse` is
a sequence (possibly empty), never null.  (The original claim also asserted
that a header with zero qualifying rows always returns the empty sequence;
that fails when a data row has more cells than the header row, in which
case `parse` throws — see the counterexample.) -/
theorem claim_C7 (body : List Char) :
    (parseTable body = .ok none ↔ ¬ lc headerPat <:+: lc body) ∧
    (lc headerPat <:+: lc body → ∀ r, parseTable body = .ok r → ∃ l, r = some l) := by
  cases hf : ciFindHeader body with
  | none =>
    have hni := (ciFindHeader_none_iff body).mp hf
    constructor
    · constructor
      · intro _
        exact hni
      · intro _
        unfold parseTable
        rw [hf]
    · intro hinf
      exact absurd hinf hni
  | some i =>
    have hinf : lc headerPat <:+: lc body := by
      by_contra hn
      have := (ciFindHeader_none_iff body).mpr hn
      rw [this] at hf
      exact Option.noConfusion hf
    constructor
    · constructor
      · intro hok
        unfold parseTable at hok
        rw [hf] at hok
        have hok2 : Except.map some (parseTableAt body (tableStartOf body i))
            = Except.ok none := hok
        exfalso
        cases hp : parseTableAt body (tableStartOf body i) with
        | error e => rw [hp] at hok2; exact Except.noConfusion hok2
        | ok l =>
          rw [hp] at hok2
          injection hok2 with hok2
          exact Option.noConfusion hok2
      · intro hni
        exact absurd hinf hni
    · intro _ r hr
      unfold parseTable at hr
      rw [hf] at hr
      have hr2 : Except.map some (parseTableAt body (tableStartOf body i))
          = Except.ok r := hr
      cases hp : parseTableAt body (tableStartOf body i) with
      | error e => rw [hp] at hr2; exact Except.noConfusion hr2
      | ok l =>
        rw [hp] at hr2
        injection hr2 with hr2
        exact ⟨l, hr2.symm⟩

/-- C7 witness: a body without the header parses to null. -/
theorem claim_C7_witness : parseTable "nothing tabular here".data = .ok none :=
  (claim_C7 "nothing tabular here".data).1.mpr (by decide)

/-- C7 counterexample: the header is present and no row qualifies, yet
`parse` does not return the empty sequence — it throws (the data row has
six cells against the header's five). -/
theorem claim_C7_counterexample :
    lc headerPat <:+: lc "| Package | Update | Change |\n|---|---|---|\n| x | y | z | w |\n\n".data
    ∧ parseTable "| Package | Update | Change |\n|---|---|---|\n| x | y | z | w |\n\n".data
        = .error () := by
  constructor
  · decide
  · rfl

/-- C3, amended: `parse` returns normally on every body in which each data
row of the located table has at most as many cells as the header row, and
cells under a column whose lower-cased name is not `package`, `update` or
`change` are silently ignored.  (The original claim asserted that a data
row with more cells than the header row is also handled; in fact
`tableHeader[i].toLowerCase()` then throws a `TypeError` — see the
counterexample.) -/
theorem claim_C3 (body : List Char) (h : rowsOKb body = true) :
    (∃ r, parseTable body = .ok r) ∧
    (∀ th i v rest u hcell, th.get? i = some hcell →
      lc hcell ≠ "package".data → lc hcell ≠ "update".data → lc hcell ≠ "change".data →
      fillUpdate th i (v :: rest) u = fillUpdate th (i + 1) rest u) := by
  constructor
  · cases hf : ciFindHeader body with
    | none =>
      refine ⟨none, ?_⟩
      unfold parseTable
      rw [hf]
    | some i =>
      unfold rowsOKb at h
      rw [hf] at h
      rw [List.all_eq_true] at h
      have hrows : ∀ row ∈ tableDataOf body (tableStartOf body i),
          row.length ≤ (tableHeaderOf body (tableStartOf body i)).length := by
        intro row hrow
        simpa using h row hrow
      obtain ⟨us, hus⟩ := buildUpdates_ok _ _ hrows
      refine ⟨some (toGitUpdates (us.filter fun u => u.update? = some "digest".data)), ?_⟩
      unfold parseTable
      rw [hf]
      show Except.map some (parseTableAt body (tableStartOf body i)) = _
      unfold parseTableAt
      rw [hus]
      rfl
  · intro th i v rest u hcell hth h1 h2 h3
    rw [List.get?_eq_getElem?] at hth
    simp [fillUpdate, hth, h1, h2, h3]

/-- C3 witness: a well-formed one-row digest table parses normally. -/
theorem claim_C3_witness :
    rowsOKb ("| Package | Update | Change |\n|---|---|---|\n| p | digest | `aaaaaaa` -> `bbbbbbb` |\n\nrest").data = true
    ∧ ∃ r, parseTable ("| Package | Update | Change |\n|---|---|---|\n| p | digest | `aaaaaaa` -> `bbbbbbb` |\n\nrest").data = .ok r :=
  ⟨by decide,
    (claim_C3 ("| Package | Update | Change |\n|---|---|---|\n| p | digest | `aaaaaaa` -> `bbbbbbb` |\n\nrest").data (by decide)).1⟩

/-- C3 counterexample: a data row with more cells than the header row makes
`parse` throw a `TypeError` instead of returning normally. -/
theorem claim_C3_counterexample :
    parseTable "| Package | Update | Change |\n|---|---|---|\n| a | b | c | d |\n\n".data
      = .error () := by
  rfl

/-- C5, amended: the parsed table region is the text from the header up to
the first blank line following it, and everything after that blank line is
ignored — two bodies sharing the region up to and including the blank line
parse identically.  (The original claim also said that with no blank line
after the header the rest of the body becomes the table; in fact JavaScript
`substring(tableStart, -1)` clamps `-1` to `0` and swaps its arguments, so
the parsed region is then the text before the header — see the
counterexample.) -/
theorem claim_C5 :
    (∀ p s t : List Char, (ciFindHeader p).isSome →
      parseTable (p ++ '\n' :: '\n' :: s) = parseTable (p ++ '\n' :: '\n' :: t)) ∧
    (∀ body i, ciFindHeader body = some i →
      findFromAux ['\n', '\n'] (body.drop i) = none →
      tableStartOf body i = i ∧ tableBodyOf body i = body.take i) := by
  constructor
  · exact parseTable_suffix_indep
  · intro body i hf hnone
    refine ⟨tableStart_eq body i hf, ?_⟩
    unfold tableBodyOf tableEndOf
    rw [hnone]
    rfl

/-- C5 witness: changing the text after the first blank line following the
header does not change the parse. -/
theorem claim_C5_witness :
    parseTable ("| Package | Update | Change |\n|---|---|---|\n| p | digest | `aaaaaaa` -> `bbbbbbb` |".data
        ++ '\n' :: '\n' :: "| later | digest | `1234567` -> `89abcde` |".data)
      = parseTable ("| Package | Update | Change |\n|---|---|---|\n| p | digest | `aaaaaaa` -> `bbbbbbb` |".data
        ++ '\n' :: '\n' :: "unrelated trailing text".data) :=
  claim_C5.1 _ _ _ (by decide)

/-- C5 counterexample: with the header at position 0 and no blank line
afterwards, the parsed region is empty (the text before the header), not
the rest of the body, so the valid digest row below the header is lost. -/
theorem claim_C5_counterexample :
    parseTable "| Package | Update | Change |\n|---|---|---|\n| p | digest | `aaaaaaa` -> `bbbbbbb` |".data
        = .ok (some [])
    ∧ tableBodyOf "| Package | Update | Change |\n|---|---|---|\n| p | digest | `aaaaaaa` -> `bbbbbbb` |".data 0
        = [] := by
  constructor
  · rfl
  · decide

/-- C8: the records produced from the parsed rows are exactly, in order,
the rows whose `update` cell is literally `digest`, whose `package` and
`change` cells are non-empty, and whose change cell matches the
backtick-hex backtick-arrow-backtick hex-backtick pattern with hex runs of
7 to 40 characters of `[0-9a-f]`; the record carries the package cell
verbatim and the two captured runs, and non-qualifying rows are dropped
silently.  The second and third conjuncts characterise the pattern match:
a successful match yields bounded lowercase-hex captures occurring
literally in the cell, and any cell containing such an occurrence does
match. -/
theorem claim_C8 :
    (∀ us : List PackageUpdate,
      toGitUpdates (us.filter fun u => u.update? = some "digest".data)
        = us.filterMap qualifiesTo) ∧
    (∀ c o n : List Char, findChangeMatch c = some (o, n) →
      (∀ x ∈ o, isHexChar x) ∧ 7 ≤ o.length ∧ o.length ≤ 40 ∧
      (∀ x ∈ n, isHexChar x) ∧ 7 ≤ n.length ∧ n.length ≤ 40 ∧
      ∃ pre tail, c = pre ++ btick :: (o ++ (midArrow ++ (n ++ btick :: tail)))) ∧
    (∀ pre h1 h2 tail : List Char,
      (∀ x ∈ h1, isHexChar x) → 7 ≤ h1.length → h1.length ≤ 40 →
      (∀ x ∈ h2, isHexChar x) → 7 ≤ h2.length → h2.length ≤ 40 →
      (findChangeMatch (pre ++ btick :: (h1 ++ (midArrow ++ (h2 ++ btick :: tail))))).isSome) := by
  refine ⟨toGitUpdates_filter, findChangeMatch_sound, ?_⟩
  intro pre h1 h2 tail ha1 hl1 hu1 ha2 hl2 hu2
  apply findChangeMatch_isSome_append
  rw [changeMatchAt_complete h1 h2 tail ha1 hl1 hu1 ha2 hl2 hu2]
  rfl

/-- C8 witness: on a two-row list (one digest row with a matching change
cell, one pin row) the filter-and-extract loop agrees with the per-row
specification, and the example change cell matches the pattern. -/
theorem claim_C8_witness :
    toGitUpdates
        (List.filter (fun u => u.update? = some "digest".data)
          [⟨some "p".data, some "digest".data, some "`abc1234` -> `def5678`".data⟩,
           ⟨some "q".data, some "pin".data, some "`abc1234` -> `def5678`".data⟩])
      = List.filterMap qualifiesTo
          [⟨some "p".data, some "digest".data, some "`abc1234` -> `def5678`".data⟩,
           ⟨some "q".data, some "pin".data, some "`abc1234` -> `def5678`".data⟩]
    ∧ (findChangeMatch "`abc1234` -> `def5678`".data).isSome := by
  constructor
  · exact claim_C8.1 _
  · exact claim_C8.2.2 [] "abc1234".data "def5678".data []
      (by decide) (by decide) (by decide) (by decide) (by decide) (by decide)

/-- C2: for every oracle and every update record, on every exit path of
`render` (success, caught clone / old-long-sha / log failure returning a
message, or an uncaught rev-parse exception), the temporary clone directory
has been removed when the invocation ends: the try/finally removal runs on
all of them. -/
theorem claim_C2 (w : GitWorld) (g : GitUpdate) :
    (getGitHistoryDescription w g).tmpDirRemoved = true := by
  simp only [getGitHistoryDescription]
  repeat' split
  all_goals rfl

/-- C10: `render` normalizes the reference by stripping one trailing slash
and then one trailing `.git` before forming links; in particular a
reference ending in `.git/` loses both. -/
theorem claim_C10 (u : String) (h1 : ¬ "/".data <:+ u.data) (h2 : ¬ ".git".data <:+ u.data) :
    normalizeUrl u = u ∧ normalizeUrl (u ++ "/") = u ∧
    normalizeUrl (u ++ ".git") = u ∧ normalizeUrl (u ++ ".git/") = u := by
  have k1 : stripSuffixL u.data "/".data = u.data := stripSuffixL_of_not _ _ h1
  have k2 : stripSuffixL u.data ".git".data = u.data := stripSuffixL_of_not _ _ h2
  have hshape : u.data ++ (".git" : String).data = (u.data ++ ['.', 'g', 'i']) ++ ['t'] := by
    rw [List.append_assoc]
    rfl
  have hnogit : ¬ "/".data <:+ u.data ++ (".git" : String).data := by
    intro hsuf
    rw [hshape] at hsuf
    exact absurd ((singleton_suffix_append '/' 't' _).mp hsuf) (by decide)
  refine ⟨?_, ?_, ?_, ?_⟩
  · show (⟨stripSuffixL (stripSuffixL u.data "/".data) ".git".data⟩ : String) = u
    rw [k1, k2]
  · show (⟨stripSuffixL (stripSuffixL (u.data ++ "/".data) "/".data) ".git".data⟩ : String) = u
    rw [stripSuffixL_append u.data "/".data, k2]
  · show (⟨stripSuffixL (stripSuffixL (u.data ++ ".git".data) "/".data) ".git".data⟩ : String) = u
    rw [stripSuffixL_of_not _ _ hnogit, stripSuffixL_append u.data ".git".data]
  · show (⟨stripSuffixL
        (stripSuffixL (u.data ++ ".git/".data) "/".data) ".git".data⟩ : String) = u
    have h5 : u.data ++ (".git/" : String).data = (u.data ++ ".git".data) ++ "/".data := by
      rw [List.append_assoc]
      rfl
    rw [h5, stripSuffixL_append (u.data ++ ".git".data) "/".data,
      stripSuffixL_append u.data ".git".data]

/-- C10 witness: the normalization at a concrete bare url. -/
theorem claim_C10_witness :
    normalizeUrl "https://example.org/repo" = "https://example.org/repo" ∧
    normalizeUrl ("https://example.org/repo" ++ "/") = "https://example.org/repo" ∧
    normalizeUrl ("https://example.org/repo" ++ ".git") = "https://example.org/repo" ∧
    normalizeUrl ("https://example.org/repo" ++ ".git/") = "https://example.org/repo" :=
  claim_C10 "https://example.org/repo" (by decide) (by decide)

/-- C4: the host dispatch checks `github.com` first (first match wins) and
produces the compare links with short hashes in the description and long
hashes in the link plus the `/commit/` prefix; otherwise `googlesource.com`
produces the `+log` pair and the `/+/` prefix; any other url produces the
plain-text range description with the raw input hashes and no link. -/
theorem claim_C4 (url oldSha newSha oShort nShort oLong nLong : String) :
    (jsIncludes url "github.com" = true →
      diffParts url oldSha newSha oShort nShort oLong nLong =
        (url ++ "/compare/" ++ oShort ++ "..." ++ nShort,
         url ++ "/compare/" ++ oLong ++ "..." ++ nLong,
         url ++ "/commit/", true)) ∧
    (jsIncludes url "github.com" = false → jsIncludes url "googlesource.com" = true →
      diffParts url oldSha newSha oShort nShort oLong nLong =
        (url ++ "/+log/" ++ oShort ++ ".." ++ nShort,
         url ++ "/+log/" ++ oLong ++ ".." ++ nLong,
         url ++ "/+/", true)) ∧
    (jsIncludes url "github.com" = false → jsIncludes url "googlesource.com" = false →
      diffParts url oldSha newSha oShort nShort oLong nLong =
        (url ++ " " ++ oldSha ++ ".." ++ newSha, "", "", false)) := by
  refine ⟨?_, ?_, ?_⟩
  · intro hg
    simp [diffParts, hg]
  · intro hg hs
    simp [diffParts, hg, hs]
  · intro hg hs
    simp [diffParts, hg, hs]

/-- C4 witness: the three formats at concrete urls. -/
theorem claim_C4_witness :
    diffParts "https://github.com/a/b" "o" "n" "os" "ns" "ol" "nl" =
      ("https://github.com/a/b/compare/os...ns",
       "https://github.com/a/b/compare/ol...nl",
       "https://github.com/a/b/commit/", true) ∧
    diffParts "https://x.googlesource.com/r" "o" "n" "os" "ns" "ol" "nl" =
      ("https://x.googlesource.com/r/+log/os..ns",
       "https://x.googlesource.com/r/+log/ol..nl",
       "https://x.googlesource.com/r/+/", true) ∧
    diffParts "https://example.org/r" "o" "n" "os" "ns" "ol" "nl" =
      ("https://example.org/r o..n", "", "", false) := by
  refine ⟨?_, ?_, ?_⟩
  · exact (claim_C4 "https://github.com/a/b" "o" "n" "os" "ns" "ol" "nl").1 (by decide)
  · exact (claim_C4 "https://x.googlesource.com/r" "o" "n" "os" "ns" "ol" "nl").2.1
      (by decide) (by decide)
  · exact (claim_C4 "https://example.org/r" "o" "n" "os" "ns" "ol" "nl").2.2
      (by decide) (by decide)

theorem calls_env (w : GitWorld) (g : GitUpdate) :
    ∀ c ∈ (getGitHistoryDescription w g).calls, c.env = sanitizeEnvs w.procEnv := by
  simp only [getGitHistoryDescription]
  repeat' split
  all_goals simp [List.forall_mem_cons]

/-- C6: every external git invocation recorded by `render` runs with the
child environment built by `sanitizeEnvs`: `LANG` and `LC_ALL` forced to
`C.UTF-8`, `TZ` forced to `UTC`, and every other variable read from the
process environment unchanged.  The process environment itself is passed
through untouched (the overrides exist only in the child map). -/
theorem claim_C6 (w : GitWorld) (g : GitUpdate) (c : ExecCall)
    (hc : c ∈ (getGitHistoryDescription w g).calls) :
    c.env "LANG" = some "C.UTF-8" ∧ c.env "LC_ALL" = some "C.UTF-8" ∧
    c.env "TZ" = some "UTC" ∧
    ∀ k, k ≠ "LANG" → k ≠ "LC_ALL" → k ≠ "TZ" → c.env k = w.procEnv k := by
  have henv : c.env = sanitizeEnvs w.procEnv := calls_env w g c hc
  rw [henv]
  refine ⟨rfl, rfl, rfl, ?_⟩
  intro k t1 t2 t3
  show (if k = "TZ" then some "UTC"
      else if k = "LC_ALL" then some "C.UTF-8"
      else if k = "LANG" then some "C.UTF-8"
      else w.procEnv k) = w.procEnv k
  rw [if_neg t3, if_neg t2, if_neg t1]

/-- C6 witness: the clone invocation of a concrete render carries the
forced locale and timezone and inherits `PATH`. -/
theorem claim_C6_witness :
    cloneCallW.env "LANG" = some "C.UTF-8" ∧ cloneCallW.env "LC_ALL" = some "C.UTF-8" ∧
    cloneCallW.env "TZ" = some "UTC" ∧ cloneCallW.env "PATH" = wOK.procEnv "PATH" := by
  have hmem : cloneCallW ∈ (getGitHistoryDescription wOK uRec).calls := by
    have hcalls : (getGitHistoryDescription wOK uRec).calls = cloneCallW :: wOKrest := rfl
    rw [hcalls]
    exact List.mem_cons_self _ _
  have h := claim_C6 wOK uRec cloneCallW hmem
  exact ⟨h.1, h.2.1, h.2.2.1, h.2.2.2 "PATH" (by decide) (by decide) (by decide)⟩

/-- C1, amended: the clone failure, the old-hash long rev-parse failure and
the range-log failure are each caught where they occur and become the
returned message (`Failed to clone …`, `Failed to get long sha for …`,
`Failed to get git log: …`); and whenever the two short rev-parses and the
new-hash long rev-parse succeed, `render` returns text on every path.  (The
original claim also said short rev-parse failures are caught; they are not
— a failing short rev-parse throws past `render`, see the
counterexample.) -/
theorem claim_C1 (w : GitWorld) (g : GitUpdate) :
    (∀ e, w.exec ["clone", normalizeUrl g.url, w.tmpDirName] = .error e →
      (getGitHistoryDescription w g).result
        = .ok ("Failed to clone " ++ normalizeUrl g.url ++ ": " ++ e)) ∧
    ((∃ v, w.exec ["rev-parse", "--short", g.oldSha] = .ok v) →
     (∃ v, w.exec ["rev-parse", "--short", g.newSha] = .ok v) →
     (∃ v, w.exec ["rev-parse", g.newSha] = .ok v) →
     ∃ s, (getGitHistoryDescription w g).result = .ok s) ∧
    (∀ e, (∃ v, w.exec ["clone", normalizeUrl g.url, w.tmpDirName] = .ok v) →
      (∃ v, w.exec ["rev-parse", "--short", g.oldSha] = .ok v) →
      (∃ v, w.exec ["rev-parse", "--short", g.newSha] = .ok v) →
      w.exec ["rev-parse", g.oldSha] = .error e →
      (getGitHistoryDescription w g).result
        = .ok ("Failed to get long sha for " ++ g.oldSha ++ ": " ++ e)) ∧
    (∀ lv nv e, (∃ v, w.exec ["clone", normalizeUrl g.url, w.tmpDirName] = .ok v) →
      (∃ v, w.exec ["rev-parse", "--short", g.oldSha] = .ok v) →
      (∃ v, w.exec ["rev-parse", "--short", g.newSha] = .ok v) →
      w.exec ["rev-parse", g.oldSha] = .ok lv →
      w.exec ["rev-parse", g.newSha] = .ok nv →
      w.exec (gitLogArgs (jsTrimEnd lv) (jsTrimEnd nv)) = .error e →
      (getGitHistoryDescription w g).result = .ok ("Failed to get git log: " ++ e)) := by
  refine ⟨?_, ?_, ?_, ?_⟩
  · intro e he
    simp only [getGitHistoryDescription, he]
  · rintro ⟨v1, h1⟩ ⟨v2, h2⟩ ⟨v3, h3⟩
    cases hcl : w.exec ["clone", normalizeUrl g.url, w.tmpDirName] with
    | error e =>
      simp only [getGitHistoryDescription, hcl]
      exact ⟨_, rfl⟩
    | ok v0 =>
      cases hol : w.exec ["rev-parse", g.oldSha] with
      | error e =>
        simp only [getGitHistoryDescription, hcl, h1, h2, hol, Except.map]
        exact ⟨_, rfl⟩
      | ok lv =>
        cases hlog : w.exec (gitLogArgs (jsTrimEnd lv) (jsTrimEnd v3)) with
        | error e =>
          simp only [getGitHistoryDescription, hcl, h1, h2, hol, h3, hlog, Except.map]
          exact ⟨_, rfl⟩
        | ok L =>
          simp only [getGitHistoryDescription, hcl, h1, h2, hol, h3, hlog, Except.map]
          exact ⟨_, rfl⟩
  · rintro e ⟨v0, hcl⟩ ⟨v1, h1⟩ ⟨v2, h2⟩ hol
    simp only [getGitHistoryDescription, hcl, h1, h2, hol, Except.map]
  · rintro lv nv e ⟨v0, hcl⟩ ⟨v1, h1⟩ ⟨v2, h2⟩ hol hnl hlog
    simp only [getGitHistoryDescription, hcl, h1, h2, hol, hnl, hlog, Except.map]

/-- C1 witness: with the short and new-long rev-parses succeeding, a
concrete render returns text. -/
theorem claim_C1_witness :
    ∃ s, (getGitHistoryDescription wOK uRec).result = .ok s :=
  (claim_C1 wOK uRec).2.1 ⟨"aaaaaa1", rfl⟩ ⟨"bbbbbb2", rfl⟩ ⟨"bbbbbbbb2", rfl⟩

/-- C1 counterexample: when the clone succeeds but the short rev-parse
fails, the exception escapes `render` instead of becoming returned text —
so not every external-tool failure is caught. -/
theorem claim_C1_counterexample :
    (getGitHistoryDescription wShortFail uRec).result = .error "Error: bad revision" := rfl

/-- C9: on a fully successful render the returned fragment is one line
with the range description (a markdown link to the range link when a host
was recognized, plain text otherwise), a blank line, and a
`<details>` block titled `Details` with one line per log line — in the
order the log returned them — of the form
`[shortHash](linkPrefix fullHash) date email subject` (unlinked when no
host was recognized); and on any log line the split takes the first four
space-separated fields with the subject being everything after the fourth
space. -/
theorem claim_C9 (w : GitWorld) (g : GitUpdate) (cv so sn lo ln L : String)
    (dp : String × String × String × Bool)
    (hdp : dp = diffParts (normalizeUrl g.url) g.oldSha g.newSha (jsTrimEnd so)
      (jsTrimEnd sn) (jsTrimEnd lo) (jsTrimEnd ln))
    (hcl : w.exec ["clone", normalizeUrl g.url, w.tmpDirName] = .ok cv)
    (hso : w.exec ["rev-parse", "--short", g.oldSha] = .ok so)
    (hsn : w.exec ["rev-parse", "--short", g.newSha] = .ok sn)
    (hlo : w.exec ["rev-parse", g.oldSha] = .ok lo)
    (hln : w.exec ["rev-parse", g.newSha] = .ok ln)
    (hlog : w.exec (gitLogArgs (jsTrimEnd lo) (jsTrimEnd ln)) = .ok L) :
    ((getGitHistoryDescription w g).result =
      .ok ((if dp.2.2.2 then "- [" ++ dp.1 ++ "](" ++ dp.2.1 ++ ")\n\n"
            else "- " ++ dp.1 ++ "\n\n")
        ++ "<details><summary>Details</summary>\n\n"
        ++ String.join (((jsSplitStr '\n' (jsTrimEnd L)).filter fun l => 0 < l.length).map
            (renderEntryLine dp.2.2.1))
        ++ "</details>\n\n")) ∧
    (∀ cl fh sh d em s : String,
      ' ' ∉ fh.data → ' ' ∉ sh.data → ' ' ∉ d.data → ' ' ∉ em.data →
      renderEntryLine cl (fh ++ " " ++ sh ++ " " ++ d ++ " " ++ em ++ " " ++ s) =
        if cl ≠ "" then
          "[" ++ sh ++ "](" ++ cl ++ fh ++ ") " ++ d ++ " " ++ em ++ " " ++ s ++ "\n"
        else sh ++ " " ++ d ++ " " ++ em ++ " " ++ s ++ "\n") := by
  constructor
  · subst hdp
    simp only [getGitHistoryDescription, hcl, hso, hsn, hlo, hln, hlog, Except.map]
  · intro cl fh sh d em s hf hs hd he
    exact renderEntryLine_fields cl fh sh d em s hf hs hd he

/-- C9 witness: the full fragment produced by a concrete successful
render. -/
theorem claim_C9_witness :
    (getGitHistoryDescription wOK uRec).result
      = .ok ("- [https://github.com/acme/lib/compare/aaaaaa1...bbbbbb2](https://github.com/acme/lib/compare/aaaaaaaa1...bbbbbbbb2)\n\n<details><summary>Details</summary>\n\n[h1](https://github.com/acme/lib/commit/H1) 2024-01-02 a@example.com first subject\n</details>\n\n") := by
  have h := (claim_C9 wOK uRec "" "aaaaaa1" "bbbbbb2" "aaaaaaaa1" "bbbbbbbb2"
      "H1 h1 2024-01-02 a@example.com first subject\n"
      ("https://github.com/acme/lib/compare/aaaaaa1...bbbbbb2",
       "https://github.com/acme/lib/compare/aaaaaaaa1...bbbbbbbb2",
       "https://github.com/acme/lib/commit/", true)
      rfl rfl rfl rfl rfl rfl rfl).1
  exact h.trans rfl

end RenovateAction
